import Mathlib

/-!
Verification of the `oso` heap string-buffer library (src/unnamed/part_001,
header src/oso89.h) by a shallow embedding into Lean.

Modelling conventions:
  * `size_t` values are natural numbers; the platform is the 64-bit one, so
    the word modulus is `W = 2 ^ 64`.  Wherever the C code can wrap
    (`OSO_CAP_MAX - add_len`, `len + add_len`, `curr_len + len`) the model
    wraps explicitly with `% W` / `wsub`; wherever the C code checks before
    computing, the model checks the same condition.
  * An `oso *` handle is `Option Oso`; `none` is the C `NULL` ("absent").
    An `Oso` carries the header fields `len`, `cap` and the content region
    `data` (a list of `cap + 1` bytes, the `+ 1` being the terminator slot).
  * The allocator is nondeterministic in C; every operation that may call
    `malloc`/`realloc` takes an `allocOk : Bool` oracle telling whether that
    (single) allocation attempt succeeds.  `free` has no observable effect
    in a functional model beyond the handle becoming `none`.
  * Fresh (uninitialised) bytes from `malloc`/`realloc` are modelled with a
    fixed `junk` byte 170 (0xAA), deliberately nonzero so that no theorem
    about the terminator can hold by accident.
  * `memcpy`/`memmove` become `memcpyAt` (functional splice); the C code
    only uses them in-bounds whenever the representation invariant holds.
  * The stb_sprintf formatted-output engine is opaque: `oso_impl_catvprintf`
    is modelled over the list of chunks the engine hands to the callback
    `oso_impl_sprintfcb`, which is faithful to the callback protocol (each
    chunk is appended with `osocatlen`; a `none` handle stops the engine).
-/

namespace Oso89

/-- The 64-bit machine word modulus: `SIZE_MAX + 1`. -/
def W : Nat := 2 ^ 64

/-- `sizeof(oso_header)` on the 64-bit platform: two `size_t` fields. -/
def hdrSize : Nat := 16

/-- `#define OSO_CAP_MAX ((size_t)(-1) - (sizeof(oso_header) + 1))`. -/
def OSO_CAP_MAX : Nat := (W - 1) - (hdrSize + 1)

/-- Model of an uninitialised heap byte (0xAA), deliberately nonzero. -/
def junk : Nat := 170

/-- Wrapping `size_t` subtraction `a - b` (two's complement, modulus `W`). -/
def wsub (a b : Nat) : Nat := (a + (W - b % W)) % W

/-- A non-null `oso` buffer: header fields plus the content storage region
(`cap + 1` bytes, the last slot being reserved for the terminator). -/
structure Oso where
  len : Nat
  cap : Nat
  data : List Nat
deriving DecidableEq

/-- `memcpy(dst + off, src, src.length)` as a functional splice.  In every
use below `off + src.length ≤ dst.length`, matching the in-bounds C calls. -/
def memcpyAt (dst : List Nat) (off : Nat) (src : List Nat) : List Nat :=
  dst.take off ++ src ++ dst.drop (off + src.length)

/-- `oso_impl_reallochdr` (src/unnamed/part_001 lines 66-83): grow or create
the single header-prefixed allocation.  On `realloc` failure the previous
allocation is freed and NULL is returned; on `malloc` failure NULL is
returned.  A fresh allocation initialises `len = 0` and the terminator at
offset 0; a reallocation preserves the old bytes (up to the new size) and
only rewrites the `cap` field. -/
def oso_impl_reallochdr (hdr : Option Oso) (new_cap : Nat) (allocOk : Bool) :
    Option Oso :=
  match hdr with
  | some s =>
    if allocOk then
      some { len := s.len, cap := new_cap,
             data := s.data.take (new_cap + 1) ++
               List.replicate (new_cap + 1 - s.data.length) junk }
    else none
  | none =>
    if allocOk then
      some { len := 0, cap := new_cap, data := 0 :: List.replicate new_cap junk }
    else none

/-- `osoensurecap` (lines 106-122): hard ceiling check against
`OSO_CAP_MAX` (freeing the allocation and absenting the handle when it
fails), then exact-fit growth through `oso_impl_reallochdr` unless the
existing capacity already suffices. -/
def osoensurecap (p : Option Oso) (new_cap : Nat) (allocOk : Bool) :
    Option Oso :=
  if new_cap > OSO_CAP_MAX then none
  else
    match p with
    | some s =>
      if new_cap ≤ s.cap then some s
      else oso_impl_reallochdr (some s) new_cap allocOk
    | none => oso_impl_reallochdr none new_cap allocOk

/-- `osomakeroomfor` (lines 124-146): guarantee room for `add_len` more
bytes.  For a live buffer the overflow test is the C expression
`len > OSO_CAP_MAX - add_len` with wrapping `size_t` subtraction, and the
requested capacity is the wrapping sum `len + add_len`; for an absent
handle an over-ceiling request is a silent no-op (the handle stays NULL). -/
def osomakeroomfor (p : Option Oso) (add_len : Nat) (allocOk : Bool) :
    Option Oso :=
  match p with
  | some s =>
    if s.len > wsub OSO_CAP_MAX add_len then none
    else
      if (s.len + add_len) % W ≤ s.cap then some s
      else oso_impl_reallochdr (some s) ((s.len + add_len) % W) allocOk
  | none =>
    if add_len > OSO_CAP_MAX then none
    else oso_impl_reallochdr none add_len allocOk

/-- `osoputlen` (lines 153-163): replace the contents with `len` bytes of
`cstr`: ensure capacity, then set the length field, copy the bytes to the
start of storage and write the terminator. -/
def osoputlen (p : Option Oso) (cstr : List Nat) (len : Nat) (allocOk : Bool) :
    Option Oso :=
  match osoensurecap p len allocOk with
  | some s =>
    some { len := len, cap := s.cap,
           data := (memcpyAt s.data 0 (cstr.take len)).set len 0 }
  | none => none

/-- `osocatlen` (lines 199-211): append `len` bytes of `cstr`: make room,
then copy at the current length, write the terminator at the new end and
store the new length (`curr_len + len`, wrapping `size_t` arithmetic). -/
def osocatlen (p : Option Oso) (cstr : List Nat) (len : Nat) (allocOk : Bool) :
    Option Oso :=
  match osomakeroomfor p len allocOk with
  | some s =>
    some { len := (s.len + len) % W, cap := s.cap,
           data := (memcpyAt s.data s.len (cstr.take len)).set
             ((s.len + len) % W) 0 }
  | none => none

/-- `osoputoso` (lines 165-169).  Note the explicit `if (!other) return;`
null-source check in the C source. -/
def osoputoso (p : Option Oso) (other : Option Oso) (allocOk : Bool) :
    Option Oso :=
  match other with
  | none => p
  | some o => osoputlen p o.data o.len allocOk

/-- `osocatoso` (lines 213-217).  Note the explicit `if (!other) return;`
null-source check in the C source. -/
def osocatoso (p : Option Oso) (other : Option Oso) (allocOk : Bool) :
    Option Oso :=
  match other with
  | none => p
  | some o => osocatlen p o.data o.len allocOk

/-- `osoclear` (lines 232-238): zero the length and rewrite the terminator
at offset 0; a no-op on an absent handle, never releases the allocation. -/
def osoclear (p : Option Oso) : Option Oso :=
  match p with
  | none => none
  | some b => some { b with len := 0, data := b.data.set 0 0 }

/-- `osopokelen` (lines 258-261): unconditionally overwrite the length
field (the C function requires a non-null handle). -/
def osopokelen (b : Oso) (len : Nat) : Oso := { b with len := len }

/-- `osolen` (lines 263-266). -/
def osolen (p : Option Oso) : Nat :=
  match p with
  | none => 0
  | some b => b.len

/-- `osocap` (lines 268-271). -/
def osocap (p : Option Oso) : Nat :=
  match p with
  | none => 0
  | some b => b.cap

/-- `oso_impl_catvprintf`/`oso_impl_sprintfcb` (lines 85-104), with the
stb_sprintf engine abstracted by the list of chunks it feeds the callback:
each chunk is appended with `osocatlen` (one allocator-oracle entry per
append), and the engine stops as soon as the handle collapses to NULL
(the callback returns NULL in that case). -/
def oso_impl_catvprintf (p : Option Oso) (chunks : List (List Nat))
    (oracle : List Bool) : Option Oso :=
  match chunks with
  | [] => p
  | c :: rest =>
    match osocatlen p c c.length (oracle.headD true) with
    | none => none
    | some b => oso_impl_catvprintf (some b) rest oracle.tail

/-- `osocatvprintf` (lines 219-222): delegate to `oso_impl_catvprintf`. -/
def osocatvprintf (p : Option Oso) (chunks : List (List Nat))
    (oracle : List Bool) : Option Oso :=
  oso_impl_catvprintf p chunks oracle

/-- `osoputvprintf` (lines 171-179): if the handle is live, zero the length
and write the terminator at offset 0, then delegate to
`oso_impl_catvprintf`. -/
def osoputvprintf (p : Option Oso) (chunks : List (List Nat))
    (oracle : List Bool) : Option Oso :=
  match p with
  | none => oso_impl_catvprintf none chunks oracle
  | some b =>
    oso_impl_catvprintf (some { b with len := 0, data := b.data.set 0 0 })
      chunks oracle

/-- `strchr(cut_set, c) != NULL` for a C string `cut_set`: `c` occurs among
the bytes before the terminator, or `c` is 0 (strchr also finds the
terminator itself). -/
def strchrHit (cut : List Nat) (c : Nat) : Bool :=
  c == 0 || (cut.takeWhile (fun b => b != 0)).contains c

/-- Fuel-driven body of the leading scan of `osotrim`
(`while (start_pos <= end && strchr(cut_set, *start_pos)) start_pos++`). -/
def scanFwdAux : Nat → List Nat → List Nat → Nat → Nat → Nat
  | 0, _, _, _, i => i
  | fuel + 1, data, cut, stop, i =>
    if i < stop ∧ strchrHit cut (data.getD i 0) = true then
      scanFwdAux fuel data cut stop (i + 1)
    else i

/-- First index `≥ i` (up to `stop`) whose byte is not in the cut set. -/
def scanFwd (data cut : List Nat) (stop i : Nat) : Nat :=
  scanFwdAux (stop - i) data cut stop i

/-- Fuel-driven body of the trailing scan of `osotrim`
(`while (end_pos > start_pos && strchr(cut_set, *end_pos)) end_pos--`). -/
def scanBackAux : Nat → List Nat → List Nat → Nat → Nat → Nat
  | 0, _, _, _, e => e
  | fuel + 1, data, cut, start, e =>
    if start < e ∧ strchrHit cut (data.getD e 0) = true then
      scanBackAux fuel data cut start (e - 1)
    else e

/-- Last index `≤ e` (down to `start`) reached by the trailing scan. -/
def scanBack (data cut : List Nat) (start e : Nat) : Nat :=
  scanBackAux (e - start) data cut start e

/-- `osotrim` (lines 294-307): trim every leading/trailing byte found by
`strchr` in `cut_set`, shift the surviving span to the front when it moved
(`memmove`), store the new length and rewrite the terminator.  A `len = 0`
buffer takes the degenerate path (`end = str - 1`): both scans stop at
once, the survivor is empty and only the terminator write happens. -/
def osotrim (p : Option Oso) (cut : List Nat) : Option Oso :=
  match p with
  | none => none
  | some b =>
    if b.len = 0 then some { b with len := 0, data := b.data.set 0 0 }
    else
      let start := scanFwd b.data cut b.len 0
      if start = b.len then some { b with len := 0, data := b.data.set 0 0 }
      else
        let endP := scanBack b.data cut start (b.len - 1)
        let len2 := endP - start + 1
        let data2 :=
          if start = 0 then b.data
          else memcpyAt b.data 0 ((b.data.drop start).take len2)
        some { b with len := len2, data := data2.set len2 0 }

/-- The representation invariant of a live buffer: `length ≤ capacity`,
`capacity` under the hard ceiling, the storage region holds exactly
`capacity + 1` bytes and the byte at index `length` is the terminator. -/
def invB (b : Oso) : Bool :=
  decide (b.len ≤ b.cap) && decide (b.cap ≤ OSO_CAP_MAX) &&
    decide (b.data.length = b.cap + 1) && decide (b.data.getD b.len 0 = 0)

/-- The invariant lifted to handles; the absent handle is always valid. -/
def invHolds (p : Option Oso) : Bool :=
  match p with
  | none => true
  | some b => invB b

/-- The logical content of a handle: the first `len` storage bytes
(empty for the absent handle). -/
def osoStr (p : Option Oso) : List Nat :=
  match p with
  | none => []
  | some b => b.data.take b.len

/-! ### Elementary list lemmas (self-contained) -/

theorem getD_set_self (l : List Nat) (i v : Nat) (h : i < l.length) :
    (l.set i v).getD i 0 = v := by
  induction l generalizing i with
  | nil => simp at h
  | cons a t ih =>
    cases i with
    | zero => rfl
    | succ n =>
      simp only [List.set_cons_succ, List.getD_cons_succ]
      exact ih n (by simpa using h)

theorem take_set_ge (l : List Nat) (i n v : Nat) (h : n ≤ i) :
    (l.set i v).take n = l.take n := by
  induction l generalizing i n with
  | nil => simp
  | cons a t ih =>
    cases i with
    | zero =>
      have : n = 0 := Nat.le_zero.mp h
      simp [this]
    | succ k =>
      cases n with
      | zero => simp
      | succ m =>
        simp only [List.set_cons_succ, List.take_succ_cons]
        rw [ih k m (Nat.le_of_succ_le_succ h)]

theorem take_append_left (l1 l2 : List Nat) (n : Nat) (h : n ≤ l1.length) :
    (l1 ++ l2).take n = l1.take n := by
  induction l1 generalizing n with
  | nil =>
    have : n = 0 := by simpa using h
    simp [this]
  | cons a t ih =>
    cases n with
    | zero => simp
    | succ m =>
      simp only [List.cons_append, List.take_succ_cons]
      rw [ih m (by simpa using h)]

theorem take_append_add (l1 l2 : List Nat) (k : Nat) :
    (l1 ++ l2).take (l1.length + k) = l1 ++ l2.take k := by
  induction l1 with
  | nil => simp
  | cons a t ih =>
    simp only [List.cons_append, List.length_cons]
    have harith : t.length + 1 + k = (t.length + k) + 1 := by omega
    rw [harith, List.take_succ_cons, ih]

theorem getD_append_left (l1 l2 : List Nat) (i : Nat) (h : i < l1.length) :
    (l1 ++ l2).getD i 0 = l1.getD i 0 := by
  induction l1 generalizing i with
  | nil => simp at h
  | cons a t ih =>
    cases i with
    | zero => rfl
    | succ n =>
      simp only [List.cons_append, List.getD_cons_succ]
      exact ih n (by simpa using h)

theorem getD_take_lt (l : List Nat) (n i : Nat) (h : i < n) :
    (l.take n).getD i 0 = l.getD i 0 := by
  induction l generalizing n i with
  | nil => simp
  | cons a t ih =>
    cases n with
    | zero => omega
    | succ m =>
      cases i with
      | zero => rfl
      | succ j =>
        simp only [List.take_succ_cons, List.getD_cons_succ]
        exact ih m j (by omega)

theorem take_take_min (l : List Nat) (m n : Nat) :
    (l.take m).take n = l.take (min n m) := by
  induction l generalizing m n with
  | nil => simp
  | cons a t ih =>
    cases m with
    | zero => simp
    | succ k =>
      cases n with
      | zero => simp
      | succ j =>
        simp only [List.take_succ_cons, Nat.succ_min_succ]
        rw [ih k j]

theorem take_all_len (l : List Nat) (n : Nat) (h : l.length ≤ n) :
    l.take n = l := by
  induction l generalizing n with
  | nil => simp
  | cons a t ih =>
    cases n with
    | zero => simp at h
    | succ m =>
      simp only [List.take_succ_cons]
      rw [ih m (by simpa using h)]

/-! ### Scan-loop characterisation -/

/-- One-step unfolding of the leading scan, matching the C loop body. -/
theorem scanFwd_eq (data cut : List Nat) (stop i : Nat) :
    scanFwd data cut stop i =
      if i < stop ∧ strchrHit cut (data.getD i 0) = true then
        scanFwd data cut stop (i + 1)
      else i := by
  unfold scanFwd
  rcases h : stop - i with _ | n
  · have hi : ¬ i < stop := by omega
    simp only [scanFwdAux]
    rw [if_neg (by exact fun hc => hi hc.1)]
  · have h2 : stop - (i + 1) = n := by omega
    simp only [scanFwdAux, h2]

/-- One-step unfolding of the trailing scan, matching the C loop body. -/
theorem scanBack_eq (data cut : List Nat) (start e : Nat) :
    scanBack data cut start e =
      if start < e ∧ strchrHit cut (data.getD e 0) = true then
        scanBack data cut start (e - 1)
      else e := by
  unfold scanBack
  rcases h : e - start with _ | n
  · have hi : ¬ start < e := by omega
    simp only [scanBackAux]
    rw [if_neg (by exact fun hc => hi hc.1)]
  · have h2 : e - 1 - start = n := by omega
    simp only [scanBackAux, h2]

theorem scanFwdAux_bounds (fuel : Nat) (data cut : List Nat) (stop i : Nat)
    (h : i ≤ stop) :
    i ≤ scanFwdAux fuel data cut stop i ∧ scanFwdAux fuel data cut stop i ≤ stop := by
  induction fuel generalizing i with
  | zero => exact ⟨Nat.le_refl i, h⟩
  | succ n ih =>
    simp only [scanFwdAux]
    by_cases hc : i < stop ∧ strchrHit cut (data.getD i 0) = true
    · rw [if_pos hc]
      have := ih (i + 1) hc.1
      exact ⟨Nat.le_trans (Nat.le_succ i) this.1, this.2⟩
    · rw [if_neg hc]
      exact ⟨Nat.le_refl i, h⟩

theorem scanFwd_bounds (data cut : List Nat) (stop i : Nat) (h : i ≤ stop) :
    i ≤ scanFwd data cut stop i ∧ scanFwd data cut stop i ≤ stop :=
  scanFwdAux_bounds (stop - i) data cut stop i h

theorem scanBackAux_bounds (fuel : Nat) (data cut : List Nat) (start e : Nat)
    (h : start ≤ e) :
    start ≤ scanBackAux fuel data cut start e ∧ scanBackAux fuel data cut start e ≤ e := by
  induction fuel generalizing e with
  | zero => exact ⟨h, Nat.le_refl e⟩
  | succ n ih =>
    simp only [scanBackAux]
    by_cases hc : start < e ∧ strchrHit cut (data.getD e 0) = true
    · rw [if_pos hc]
      have := ih (e - 1) (by omega)
      exact ⟨this.1, by omega⟩
    · rw [if_neg hc]
      exact ⟨h, Nat.le_refl e⟩

theorem scanBack_bounds (data cut : List Nat) (start e : Nat) (h : start ≤ e) :
    start ≤ scanBack data cut start e ∧ scanBack data cut start e ≤ e :=
  scanBackAux_bounds (e - start) data cut start e h

/-! ### Arithmetic facts about the capacity ceiling -/

theorem cap_max_lt_W : OSO_CAP_MAX < W := by decide

theorem wsub_exact (a b : Nat) (hb : b ≤ a) (ha : a < W) : wsub a b = a - b := by
  unfold wsub
  have hbW : b < W := lt_of_le_of_lt hb ha
  rw [Nat.mod_eq_of_lt hbW]
  have h1 : a + (W - b) = W + (a - b) := by
    have hW : b ≤ W := Nat.le_of_lt hbW
    omega
  rw [h1, Nat.add_mod_left, Nat.mod_eq_of_lt (by omega)]

theorem invB_iff (b : Oso) :
    invB b = true ↔
      (b.len ≤ b.cap ∧ b.cap ≤ OSO_CAP_MAX ∧ b.data.length = b.cap + 1 ∧
        b.data.getD b.len 0 = 0) := by
  simp [invB, Bool.and_eq_true, decide_eq_true_eq, and_assoc]

/-! ### `memcpy` facts -/

theorem memcpyAt_zero (d src : List Nat) :
    memcpyAt d 0 src = src ++ d.drop src.length := by
  simp [memcpyAt]

theorem memcpyAt_length (d src : List Nat) (off : Nat)
    (h : off + src.length ≤ d.length) :
    (memcpyAt d off src).length = d.length := by
  simp only [memcpyAt, List.length_append, List.length_take, List.length_drop]
  omega

/-! ### Allocation-manager postconditions -/

/-- Growing reallocation: on failure the handle is absent; on success the
length and the first `len` content bytes survive, the capacity becomes
exactly `n` and the invariant is re-established. -/
theorem reallochdr_grow_spec (s : Oso) (n : Nat) (ok : Bool)
    (hs : invB s = true) (hl : s.len ≤ n) (hn : n ≤ OSO_CAP_MAX) :
    invHolds (oso_impl_reallochdr (some s) n ok) = true ∧
    ∀ s2, oso_impl_reallochdr (some s) n ok = some s2 →
      invB s2 = true ∧ s2.len = s.len ∧ s2.cap = n ∧
      s2.data.take s.len = s.data.take s.len := by
  obtain ⟨h1, h2, h3, h4⟩ := (invB_iff s).mp hs
  cases ok with
  | false =>
    refine ⟨rfl, ?_⟩
    intro s2 hs2
    exact absurd hs2 (by simp [oso_impl_reallochdr])
  | true =>
    have hres : oso_impl_reallochdr (some s) n true =
        some ⟨s.len, n, s.data.take (n + 1) ++
          List.replicate (n + 1 - s.data.length) junk⟩ := rfl
    have hlen2 : (s.data.take (n + 1) ++
        List.replicate (n + 1 - s.data.length) junk).length = n + 1 := by
      simp only [List.length_append, List.length_take, List.length_replicate]
      omega
    have htake : (s.data.take (n + 1) ++
        List.replicate (n + 1 - s.data.length) junk).take s.len =
        s.data.take s.len := by
      rw [take_append_left _ _ _ (by simp only [List.length_take]; omega),
        take_take_min]
      have : min s.len (n + 1) = s.len := by omega
      rw [this]
    have hgetD : (s.data.take (n + 1) ++
        List.replicate (n + 1 - s.data.length) junk).getD s.len 0 = 0 := by
      rw [getD_append_left _ _ _ (by simp only [List.length_take]; omega),
        getD_take_lt _ _ _ (by omega)]
      exact h4
    have hinv : invB (⟨s.len, n, s.data.take (n + 1) ++
        List.replicate (n + 1 - s.data.length) junk⟩ : Oso) = true :=
      (invB_iff _).mpr ⟨hl, hn, hlen2, hgetD⟩
    refine ⟨by rw [hres]; exact hinv, ?_⟩
    intro s2 hs2
    rw [hres] at hs2
    simp only [Option.some.injEq] at hs2
    subst hs2
    exact ⟨hinv, rfl, rfl, htake⟩

/-- Fresh allocation: on failure the handle stays absent; on success the
buffer is empty with capacity exactly `n`, terminated at offset 0, and the
invariant holds. -/
theorem reallochdr_fresh_spec (n : Nat) (ok : Bool) (hn : n ≤ OSO_CAP_MAX) :
    invHolds (oso_impl_reallochdr none n ok) = true ∧
    ∀ s2, oso_impl_reallochdr none n ok = some s2 →
      invB s2 = true ∧ s2.len = 0 ∧ s2.cap = n := by
  cases ok with
  | false =>
    refine ⟨rfl, ?_⟩
    intro s2 hs2
    exact absurd hs2 (by simp [oso_impl_reallochdr])
  | true =>
    have hres : oso_impl_reallochdr none n true =
        some ⟨0, n, 0 :: List.replicate n junk⟩ := rfl
    have hinv : invB (⟨0, n, 0 :: List.replicate n junk⟩ : Oso) = true := by
      refine (invB_iff _).mpr ⟨Nat.zero_le n, hn, ?_, rfl⟩
      simp
    refine ⟨by rw [hres]; exact hinv, ?_⟩
    intro s2 hs2
    rw [hres] at hs2
    simp only [Option.some.injEq] at hs2
    subst hs2
    exact ⟨hinv, rfl, rfl⟩

/-- `osoensurecap` postcondition: the invariant is preserved, and a live
result has capacity at least the request, its old length, and its old
content prefix. -/
theorem ensurecap_post (p : Option Oso) (n : Nat) (ok : Bool)
    (hp : invHolds p = true) :
    invHolds (osoensurecap p n ok) = true ∧
    ∀ s2, osoensurecap p n ok = some s2 →
      invB s2 = true ∧ n ≤ s2.cap ∧ s2.len = osolen p ∧
      s2.data.take s2.len = osoStr p := by
  by_cases hceil : n > OSO_CAP_MAX
  · simp only [osoensurecap, if_pos hceil]
    exact ⟨rfl, fun s2 hs2 => absurd hs2 (by simp)⟩
  · push_neg at hceil
    cases p with
    | none =>
      simp only [osoensurecap, if_neg (not_lt.mpr hceil)]
      obtain ⟨hh, hpost⟩ := reallochdr_fresh_spec n ok hceil
      refine ⟨hh, ?_⟩
      intro s2 hs2
      obtain ⟨hi, hl0, hc⟩ := hpost s2 hs2
      refine ⟨hi, by omega, by simpa [osolen] using hl0, ?_⟩
      rw [hl0]
      simp [osoStr]
    | some s =>
      have hs : invB s = true := hp
      obtain ⟨h1, h2, h3, h4⟩ := (invB_iff s).mp hs
      simp only [osoensurecap, if_neg (not_lt.mpr hceil)]
      by_cases hfit : n ≤ s.cap
      · simp only [if_pos hfit]
        refine ⟨hs, ?_⟩
        intro s2 hs2
        simp only [Option.some.injEq] at hs2
        subst hs2
        exact ⟨hs, hfit, rfl, rfl⟩
      · simp only [if_neg hfit]
        have hl : s.len ≤ n := by omega
        obtain ⟨hh, hpost⟩ := reallochdr_grow_spec s n ok hs hl hceil
        refine ⟨hh, ?_⟩
        intro s2 hs2
        obtain ⟨hi, hlen, hcap, htake⟩ := hpost s2 hs2
        refine ⟨hi, by omega, hlen, ?_⟩
        rw [hlen, htake]
        rfl

/-- `osomakeroomfor` postcondition for realisable spans
(`add_len ≤ OSO_CAP_MAX`): the invariant is preserved, and a live result
keeps its length and content prefix and has room for `add_len` more
bytes. -/
theorem makeroomfor_post (p : Option Oso) (add : Nat) (ok : Bool)
    (hp : invHolds p = true) (hadd : add ≤ OSO_CAP_MAX) :
    invHolds (osomakeroomfor p add ok) = true ∧
    ∀ s2, osomakeroomfor p add ok = some s2 →
      invB s2 = true ∧ s2.len = osolen p ∧ osolen p + add ≤ s2.cap ∧
      s2.data.take s2.len = osoStr p := by
  cases p with
  | none =>
    simp only [osomakeroomfor, if_neg (not_lt.mpr hadd)]
    obtain ⟨hh, hpost⟩ := reallochdr_fresh_spec add ok hadd
    refine ⟨hh, ?_⟩
    intro s2 hs2
    obtain ⟨hi, hl0, hc⟩ := hpost s2 hs2
    refine ⟨hi, by simpa [osolen] using hl0, by simp [osolen]; omega, ?_⟩
    rw [hl0]
    simp [osoStr]
  | some s =>
    have hs : invB s = true := hp
    obtain ⟨h1, h2, h3, h4⟩ := (invB_iff s).mp hs
    have hwsub : wsub OSO_CAP_MAX add = OSO_CAP_MAX - add :=
      wsub_exact _ _ hadd cap_max_lt_W
    simp only [osomakeroomfor, hwsub]
    by_cases hover : s.len > OSO_CAP_MAX - add
    · simp only [if_pos hover]
      exact ⟨rfl, fun s2 hs2 => absurd hs2 (by simp)⟩
    · simp only [if_neg hover]
      push_neg at hover
      have hsum : s.len + add ≤ OSO_CAP_MAX := by omega
      have hmod : (s.len + add) % W = s.len + add :=
        Nat.mod_eq_of_lt (by have := cap_max_lt_W; omega)
      rw [hmod]
      by_cases hfit : s.len + add ≤ s.cap
      · simp only [if_pos hfit]
        refine ⟨hs, ?_⟩
        intro s2 hs2
        simp only [Option.some.injEq] at hs2
        subst hs2
        exact ⟨hs, rfl, hfit, rfl⟩
      · simp only [if_neg hfit]
        have hl : s.len ≤ s.len + add := Nat.le_add_right _ _
        obtain ⟨hh, hpost⟩ := reallochdr_grow_spec s (s.len + add) ok hs hl hsum
        refine ⟨hh, ?_⟩
        intro s2 hs2
        obtain ⟨hi, hlen, hcap, htake⟩ := hpost s2 hs2
        refine ⟨hi, hlen, by simp only [osolen]; omega, ?_⟩
        rw [hlen, htake]
        rfl

/-! ### Content-mutator postconditions -/

/-- `osoputlen` postcondition: the invariant is preserved, and a live
result holds exactly the first `len` source bytes, terminated. -/
theorem putlen_spec (p : Option Oso) (c : List Nat) (len : Nat) (ok : Bool)
    (hp : invHolds p = true) (hlen : len ≤ c.length) :
    invHolds (osoputlen p c len ok) = true ∧
    ∀ b2, osoputlen p c len ok = some b2 →
      invB b2 = true ∧ b2.len = len ∧ b2.data.take len = c.take len ∧
      b2.data.getD len 0 = 0 ∧ b2.cap = osocap (osoensurecap p len ok) := by
  obtain ⟨hh, hpost⟩ := ensurecap_post p len ok hp
  cases hres : osoensurecap p len ok with
  | none =>
    simp only [osoputlen, hres]
    exact ⟨rfl, fun b2 hb2 => absurd hb2 (by simp)⟩
  | some s =>
    obtain ⟨hi, hcap, hslen, htake⟩ := hpost s hres
    obtain ⟨h1, h2, h3, h4⟩ := (invB_iff s).mp hi
    simp only [osoputlen, hres]
    have hsrclen : (c.take len).length = len := by
      simp only [List.length_take]
      omega
    have hmem : memcpyAt s.data 0 (c.take len) =
        c.take len ++ s.data.drop len := by
      rw [memcpyAt_zero, hsrclen]
    have hmemlen : (memcpyAt s.data 0 (c.take len)).length = s.data.length := by
      refine memcpyAt_length _ _ _ ?_
      rw [hsrclen]
      omega
    have hdlen : ((memcpyAt s.data 0 (c.take len)).set len 0).length =
        s.cap + 1 := by
      rw [List.length_set, hmemlen, h3]
    have hdtake : ((memcpyAt s.data 0 (c.take len)).set len 0).take len =
        c.take len := by
      rw [take_set_ge _ _ _ _ (Nat.le_refl len), hmem,
        take_append_left _ _ _ (by rw [hsrclen]), take_take_min]
      have : min len len = len := by omega
      rw [this]
    have hdgetD : ((memcpyAt s.data 0 (c.take len)).set len 0).getD len 0 = 0 := by
      refine getD_set_self _ _ _ ?_
      rw [hmemlen, h3]
      omega
    have hinv : invB (⟨len, s.cap, (memcpyAt s.data 0 (c.take len)).set len 0⟩ :
        Oso) = true :=
      (invB_iff _).mpr ⟨hcap, h2, hdlen, hdgetD⟩
    refine ⟨hinv, ?_⟩
    intro b2 hb2
    simp only [Option.some.injEq] at hb2
    subst hb2
    exact ⟨hinv, rfl, hdtake, hdgetD, rfl⟩

/-- `osocatlen` postcondition for realisable spans: the invariant is
preserved, and a live result holds the old content followed by the first
`len` source bytes, with the lengths adding up. -/
theorem catlen_spec (p : Option Oso) (c : List Nat) (len : Nat) (ok : Bool)
    (hp : invHolds p = true) (hlen : len ≤ c.length)
    (hcapm : len ≤ OSO_CAP_MAX) :
    invHolds (osocatlen p c len ok) = true ∧
    ∀ b2, osocatlen p c len ok = some b2 →
      invB b2 = true ∧ b2.len = osolen p + len ∧
      b2.data.take b2.len = osoStr p ++ c.take len ∧
      b2.cap = osocap (osomakeroomfor p len ok) := by
  obtain ⟨hh, hpost⟩ := makeroomfor_post p len ok hp hcapm
  cases hres : osomakeroomfor p len ok with
  | none =>
    simp only [osocatlen, hres]
    exact ⟨rfl, fun b2 hb2 => absurd hb2 (by simp)⟩
  | some s =>
    obtain ⟨hi, hslen, hroom, htake⟩ := hpost s hres
    obtain ⟨h1, h2, h3, h4⟩ := (invB_iff s).mp hi
    simp only [osocatlen, hres]
    have hsum : s.len + len ≤ s.cap := by omega
    have hmod : (s.len + len) % W = s.len + len :=
      Nat.mod_eq_of_lt (by have := cap_max_lt_W; omega)
    have hsrclen : (c.take len).length = len := by
      simp only [List.length_take]
      omega
    have hmemlen : (memcpyAt s.data s.len (c.take len)).length =
        s.data.length := by
      refine memcpyAt_length _ _ _ ?_
      rw [hsrclen, h3]
      omega
    have hdlen : ((memcpyAt s.data s.len (c.take len)).set
        ((s.len + len) % W) 0).length = s.cap + 1 := by
      rw [List.length_set, hmemlen, h3]
    have htake1 : (s.data.take s.len ++ c.take len).length = s.len + len := by
      simp only [List.length_append, List.length_take, hsrclen]
      omega
    have hdtake : ((memcpyAt s.data s.len (c.take len)).set
        ((s.len + len) % W) 0).take ((s.len + len) % W) =
        s.data.take s.len ++ c.take len := by
      rw [hmod, take_set_ge _ _ _ _ (Nat.le_refl _)]
      show ((s.data.take s.len ++ c.take len) ++
        s.data.drop (s.len + (c.take len).length)).take (s.len + len) =
        s.data.take s.len ++ c.take len
      rw [take_append_left _ _ _ (by rw [htake1]), ← htake1, take_all_len]
      omega
    have hdgetD : ((memcpyAt s.data s.len (c.take len)).set
        ((s.len + len) % W) 0).getD ((s.len + len) % W) 0 = 0 := by
      refine getD_set_self _ _ _ ?_
      rw [hmemlen, h3, hmod]
      omega
    have hinv : invB (⟨(s.len + len) % W, s.cap,
        (memcpyAt s.data s.len (c.take len)).set ((s.len + len) % W) 0⟩ :
        Oso) = true := by
      refine (invB_iff _).mpr ⟨?_, h2, hdlen, hdgetD⟩
      rw [hmod]
      exact hsum
    refine ⟨hinv, ?_⟩
    intro b2 hb2
    simp only [Option.some.injEq] at hb2
    subst hb2
    refine ⟨hinv, ?_, ?_, rfl⟩
    · show (s.len + len) % W = osolen p + len
      rw [hmod, hslen]
    · show ((memcpyAt s.data s.len (c.take len)).set ((s.len + len) % W)
        0).take ((s.len + len) % W) = osoStr p ++ c.take len
      exact htake ▸ hdtake

/-! ### Utility-operation postconditions -/

/-- Zeroing the length and rewriting the terminator at offset 0 preserves
the invariant (shared by `osoclear` and both trim degenerate paths). -/
theorem invB_zero_reterm (b : Oso) (hb : invB b = true) :
    invB (⟨0, b.cap, b.data.set 0 0⟩ : Oso) = true := by
  obtain ⟨h1, h2, h3, h4⟩ := (invB_iff b).mp hb
  refine (invB_iff _).mpr ⟨Nat.zero_le _, h2, by rw [List.length_set, h3], ?_⟩
  exact getD_set_self _ _ _ (by omega)

/-- `osoclear` preserves the invariant. -/
theorem clear_inv (p : Option Oso) (hp : invHolds p = true) :
    invHolds (osoclear p) = true := by
  cases p with
  | none => rfl
  | some b => exact invB_zero_reterm b hp

/-- `osotrim` preserves the invariant. -/
theorem trim_inv (p : Option Oso) (cut : List Nat) (hp : invHolds p = true) :
    invHolds (osotrim p cut) = true := by
  cases p with
  | none => rfl
  | some b =>
    have hb : invB b = true := hp
    obtain ⟨h1, h2, h3, h4⟩ := (invB_iff b).mp hb
    simp only [osotrim]
    by_cases hz : b.len = 0
    · simp only [if_pos hz]
      exact invB_zero_reterm b hb
    · simp only [if_neg hz]
      obtain ⟨hs0, hsl⟩ := scanFwd_bounds b.data cut b.len 0 (Nat.zero_le _)
      by_cases hall : scanFwd b.data cut b.len 0 = b.len
      · simp only [if_pos hall]
        exact invB_zero_reterm b hb
      · simp only [if_neg hall]
        have hstart : scanFwd b.data cut b.len 0 < b.len := by omega
        obtain ⟨he1, he2⟩ := scanBack_bounds b.data cut
          (scanFwd b.data cut b.len 0) (b.len - 1) (by omega)
        have hlen2 : scanBack b.data cut (scanFwd b.data cut b.len 0)
            (b.len - 1) - scanFwd b.data cut b.len 0 + 1 ≤ b.len := by omega
        have hdlen : (if scanFwd b.data cut b.len 0 = 0 then b.data
            else memcpyAt b.data 0 ((b.data.drop (scanFwd b.data cut b.len 0)).take
              (scanBack b.data cut (scanFwd b.data cut b.len 0) (b.len - 1) -
                scanFwd b.data cut b.len 0 + 1))).length = b.cap + 1 := by
          by_cases hst : scanFwd b.data cut b.len 0 = 0
          · rw [if_pos hst, h3]
          · rw [if_neg hst]
            rw [memcpyAt_length, h3]
            simp only [List.length_take, List.length_drop]
            omega
        refine (invB_iff _).mpr ⟨?_, h2, ?_, ?_⟩
        · show scanBack b.data cut (scanFwd b.data cut b.len 0) (b.len - 1) -
            scanFwd b.data cut b.len 0 + 1 ≤ b.cap
          omega
        · show ((if scanFwd b.data cut b.len 0 = 0 then b.data
            else memcpyAt b.data 0 _).set _ 0).length = b.cap + 1
          rw [List.length_set, hdlen]
        · refine getD_set_self _ _ _ ?_
          rw [hdlen]
          omega

/-- The heart of the C7 analysis: trimming with an empty cut set preserves
the content and length of any buffer whose content does not start or end
with a zero byte (the degenerate `len = 0` path included). -/
theorem trim_nil_preserve (b : Oso)
    (hedge : b.len = 0 ∨
      (b.data.getD 0 0 ≠ 0 ∧ b.data.getD (b.len - 1) 0 ≠ 0)) :
    osoStr (osotrim (some b) []) = osoStr (some b) ∧
    osolen (osotrim (some b) []) = osolen (some b) := by
  have hhit : ∀ c, strchrHit [] c = (c == 0) := by
    intro c
    simp [strchrHit]
  by_cases hz : b.len = 0
  · have hres : osotrim (some b) [] =
        some ⟨0, b.cap, b.data.set 0 0⟩ := by
      simp only [osotrim, if_pos hz]
    rw [hres]
    refine ⟨?_, ?_⟩
    · show (b.data.set 0 0).take 0 = b.data.take b.len
      rw [hz]
      simp
    · show (0 : Nat) = b.len
      omega
  · obtain ⟨hd0, hdl⟩ := hedge.resolve_left hz
    have hstart : scanFwd b.data [] b.len 0 = 0 := by
      rw [scanFwd_eq, if_neg]
      intro hcon
      have := hcon.2
      rw [hhit] at this
      exact hd0 (by simpa using this)
    have hback : scanBack b.data [] 0 (b.len - 1) = b.len - 1 := by
      rw [scanBack_eq, if_neg]
      intro hcon
      have := hcon.2
      rw [hhit] at this
      exact hdl (by simpa using this)
    have hres : osotrim (some b) [] =
        some ⟨b.len, b.cap, b.data.set b.len 0⟩ := by
      simp only [osotrim, if_neg hz, hstart, hback]
      rw [if_neg (fun h => hz h.symm)]
      have h2 : b.len - 1 - 0 + 1 = b.len := by omega
      rw [h2]
      simp
    rw [hres]
    refine ⟨?_, rfl⟩
    show (b.data.set b.len 0).take b.len = b.data.take b.len
    exact take_set_ge _ _ _ _ (Nat.le_refl _)

/-- The formatted-output fold preserves the invariant as long as every
chunk is a realisable span (stb_sprintf chunks are at most 512 bytes). -/
theorem catvprintf_inv (chunks : List (List Nat)) (p : Option Oso)
    (oracle : List Bool) (hp : invHolds p = true)
    (hch : ∀ ch ∈ chunks, ch.length ≤ OSO_CAP_MAX) :
    invHolds (oso_impl_catvprintf p chunks oracle) = true := by
  induction chunks generalizing p oracle with
  | nil => exact hp
  | cons c rest ih =>
    simp only [oso_impl_catvprintf]
    obtain ⟨hh, hpost⟩ := catlen_spec p c c.length (oracle.headD true) hp
      (Nat.le_refl _) (hch c (by simp))
    cases hres : osocatlen p c c.length (oracle.headD true) with
    | none => rfl
    | some b =>
      obtain ⟨hi, _, _, _⟩ := hpost b hres
      exact ih (some b) oracle.tail hi (fun ch hm => hch ch (by simp [hm]))

/-! ### Claims -/

/-- C1: every mutating operation handles allocation failure and capacity
overflow identically and silently: the reallocation primitive frees the
previous allocation (if any) and reports failure only through the absent
handle (`none`), and there is no partial-success state — `osomakeroomfor`,
`osoputlen` and `osocatlen` either collapse the handle to absent or
complete fully (the result holds the complete new content, terminated,
with the complete old content preserved where the operation keeps it). -/
theorem claim_C1_fail_destructive (hdr p : Option Oso) (n : Nat)
    (c : List Nat) (ok : Bool) (hp : invHolds p = true)
    (hc : c.length ≤ OSO_CAP_MAX) :
    oso_impl_reallochdr hdr n false = none ∧
    (osomakeroomfor p c.length ok = none ∨
      ∃ s, osomakeroomfor p c.length ok = some s ∧ s.len = osolen p ∧
        osolen p + c.length ≤ s.cap ∧ s.data.take s.len = osoStr p) ∧
    (osoputlen p c c.length ok = none ∨
      ∃ b, osoputlen p c c.length ok = some b ∧ b.len = c.length ∧
        b.data.take c.length = c ∧ b.data.getD c.length 0 = 0) ∧
    (osocatlen p c c.length ok = none ∨
      ∃ b, osocatlen p c c.length ok = some b ∧ b.len = osolen p + c.length ∧
        b.data.take b.len = osoStr p ++ c) := by
  refine ⟨?_, ?_, ?_, ?_⟩
  · cases hdr <;> rfl
  · obtain ⟨_, hpost⟩ := makeroomfor_post p c.length ok hp hc
    cases hres : osomakeroomfor p c.length ok with
    | none => exact Or.inl rfl
    | some s =>
      obtain ⟨_, h1, h2, h3⟩ := hpost s hres
      exact Or.inr ⟨s, rfl, h1, h2, h3⟩
  · obtain ⟨_, hpost⟩ := putlen_spec p c c.length ok hp (Nat.le_refl _)
    cases hres : osoputlen p c c.length ok with
    | none => exact Or.inl rfl
    | some b =>
      obtain ⟨_, h1, h2, h3, _⟩ := hpost b hres
      refine Or.inr ⟨b, rfl, h1, ?_, h3⟩
      rw [h2, List.take_length]
  · obtain ⟨_, hpost⟩ := catlen_spec p c c.length ok hp (Nat.le_refl _) hc
    cases hres : osocatlen p c c.length ok with
    | none => exact Or.inl rfl
    | some b =>
      obtain ⟨_, h1, h2, _⟩ := hpost b hres
      refine Or.inr ⟨b, rfl, h1, ?_⟩
      rw [h2, List.take_length]

/-- C1 witness: the no-partial-success statement instantiated at an absent
handle, the span `[65, 66]`, a failing reallocation of a live buffer, and a
succeeding allocation oracle. -/
theorem claim_C1_witness :
    invHolds (none : Option Oso) = true ∧
    [65, 66].length ≤ OSO_CAP_MAX ∧
    (oso_impl_reallochdr (some ⟨1, 1, [65, 0]⟩) 5 false = none ∧
      (osomakeroomfor none [65, 66].length true = none ∨
        ∃ s, osomakeroomfor none [65, 66].length true = some s ∧
          s.len = osolen none ∧ osolen none + [65, 66].length ≤ s.cap ∧
          s.data.take s.len = osoStr none) ∧
      (osoputlen none [65, 66] [65, 66].length true = none ∨
        ∃ b, osoputlen none [65, 66] [65, 66].length true = some b ∧
          b.len = [65, 66].length ∧ b.data.take [65, 66].length = [65, 66] ∧
          b.data.getD [65, 66].length 0 = 0) ∧
      (osocatlen none [65, 66] [65, 66].length true = none ∨
        ∃ b, osocatlen none [65, 66] [65, 66].length true = some b ∧
          b.len = osolen none + [65, 66].length ∧
          b.data.take b.len = osoStr none ++ [65, 66])) :=
  ⟨by decide, by decide,
    claim_C1_fail_destructive (some ⟨1, 1, [65, 0]⟩) none 5 [65, 66] true
      (by decide) (by decide)⟩

/-- C2 counterexample: the claim quantifies over every completed operation,
but the manual length override `osopokelen` (an operation of this library,
reachable at the concrete invariant-satisfying buffer created by appending
nothing to an absent handle) breaks `length ≤ capacity`. -/
theorem claim_C2_pokelen_counterexample :
    osocatlen none [] 0 true = some ⟨0, 0, [0]⟩ ∧
    invHolds (some ⟨0, 0, [0]⟩) = true ∧
    invHolds (some (osopokelen ⟨0, 0, [0]⟩ 5)) = false := by
  decide

/-- C2 amended: whenever the handle is not absent, after every completed
operation other than the manual length override `osopokelen` (and for
spans/requests within the representable size bound), the representation
invariants hold: `length ≤ capacity`, the storage byte at index `length`
is the terminator 0, and `capacity ≤ platform_max_size - (header + 1)`. -/
theorem claim_C2_invariants_amended (p other : Option Oso) (c cut : List Nat)
    (len n add : Nat) (chunks : List (List Nat)) (oracle : List Bool)
    (ok : Bool) (hp : invHolds p = true) (hother : invHolds other = true)
    (hlen : len ≤ c.length) (hlenm : len ≤ OSO_CAP_MAX)
    (hadd : add ≤ OSO_CAP_MAX)
    (hch : ∀ ch ∈ chunks, ch.length ≤ OSO_CAP_MAX) :
    invHolds (osoensurecap p n ok) = true ∧
    invHolds (osomakeroomfor p add ok) = true ∧
    invHolds (osoputlen p c len ok) = true ∧
    invHolds (osocatlen p c len ok) = true ∧
    invHolds (osoputoso p other ok) = true ∧
    invHolds (osocatoso p other ok) = true ∧
    invHolds (osoputvprintf p chunks oracle) = true ∧
    invHolds (osocatvprintf p chunks oracle) = true ∧
    invHolds (osoclear p) = true ∧
    invHolds (osotrim p cut) = true := by
  refine ⟨(ensurecap_post p n ok hp).1, (makeroomfor_post p add ok hp hadd).1,
    (putlen_spec p c len ok hp hlen).1, (catlen_spec p c len ok hp hlen hlenm).1,
    ?_, ?_, ?_, catvprintf_inv chunks p oracle hp hch,
    clear_inv p hp, trim_inv p cut hp⟩
  · cases other with
    | none => exact hp
    | some o =>
      have ho : invB o = true := hother
      obtain ⟨g1, g2, g3, g4⟩ := (invB_iff o).mp ho
      exact (putlen_spec p o.data o.len ok hp (by omega)).1
  · cases other with
    | none => exact hp
    | some o =>
      have ho : invB o = true := hother
      obtain ⟨g1, g2, g3, g4⟩ := (invB_iff o).mp ho
      exact (catlen_spec p o.data o.len ok hp (by omega) (by omega)).1
  · cases p with
    | none => exact catvprintf_inv chunks none oracle rfl hch
    | some b =>
      exact catvprintf_inv chunks
        (some ⟨0, b.cap, b.data.set 0 0⟩) oracle
        (invB_zero_reterm b hp) hch

/-- C2 witness: the amended invariant-preservation statement instantiated
at concrete live buffers, spans, chunks and a succeeding oracle. -/
theorem claim_C2_witness :
    invHolds (some ⟨1, 1, [65, 0]⟩) = true ∧
    invHolds (some ⟨1, 1, [66, 0]⟩) = true ∧
    2 ≤ [67, 68].length ∧
    2 ≤ OSO_CAP_MAX ∧
    (∀ ch ∈ [[70]], List.length ch ≤ OSO_CAP_MAX) ∧
    (invHolds (osoensurecap (some ⟨1, 1, [65, 0]⟩) 3 true) = true ∧
      invHolds (osomakeroomfor (some ⟨1, 1, [65, 0]⟩) 2 true) = true ∧
      invHolds (osoputlen (some ⟨1, 1, [65, 0]⟩) [67, 68] 2 true) = true ∧
      invHolds (osocatlen (some ⟨1, 1, [65, 0]⟩) [67, 68] 2 true) = true ∧
      invHolds (osoputoso (some ⟨1, 1, [65, 0]⟩) (some ⟨1, 1, [66, 0]⟩) true) =
        true ∧
      invHolds (osocatoso (some ⟨1, 1, [65, 0]⟩) (some ⟨1, 1, [66, 0]⟩) true) =
        true ∧
      invHolds (osoputvprintf (some ⟨1, 1, [65, 0]⟩) [[70]] [true]) = true ∧
      invHolds (osocatvprintf (some ⟨1, 1, [65, 0]⟩) [[70]] [true]) = true ∧
      invHolds (osoclear (some ⟨1, 1, [65, 0]⟩)) = true ∧
      invHolds (osotrim (some ⟨1, 1, [65, 0]⟩) [32]) = true) :=
  ⟨by decide, by decide, by decide, by decide, by decide,
    claim_C2_invariants_amended (some ⟨1, 1, [65, 0]⟩) (some ⟨1, 1, [66, 0]⟩)
      [67, 68] [32] 2 3 2 [[70]] [true] true (by decide) (by decide)
      (by decide) (by decide) (by decide) (by decide)⟩

/-- C3: after a replace `osoputlen(&s, a, |a|)` completes with the handle
non-absent, its length is `|a|`, the first `|a|` storage bytes equal `a`,
and the storage byte at index `|a|` is the terminator 0. -/
theorem claim_C3_put_replaces (s : Option Oso) (a : List Nat) (ok : Bool)
    (b : Oso) (hs : invHolds s = true)
    (h : osoputlen s a a.length ok = some b) :
    osolen (some b) = a.length ∧ b.data.take a.length = a ∧
    b.data.getD a.length 0 = 0 := by
  obtain ⟨_, hpost⟩ := putlen_spec s a a.length ok hs (Nat.le_refl _)
  obtain ⟨_, h1, h2, h3, _⟩ := hpost b h
  refine ⟨by simpa [osolen] using h1, ?_, h3⟩
  rw [h2, List.take_length]

/-- C3 witness: replacing the content of an absent handle by `[1, 2, 3]`
with a succeeding allocation. -/
theorem claim_C3_witness :
    invHolds (none : Option Oso) = true ∧
    osoputlen none [1, 2, 3] [1, 2, 3].length true = some ⟨3, 3, [1, 2, 3, 0]⟩ ∧
    (osolen (some (⟨3, 3, [1, 2, 3, 0]⟩ : Oso)) = [1, 2, 3].length ∧
      (⟨3, 3, [1, 2, 3, 0]⟩ : Oso).data.take [1, 2, 3].length = [1, 2, 3] ∧
      (⟨3, 3, [1, 2, 3, 0]⟩ : Oso).data.getD [1, 2, 3].length 0 = 0) :=
  ⟨by decide, by decide,
    claim_C3_put_replaces none [1, 2, 3] true ⟨3, 3, [1, 2, 3, 0]⟩ (by decide)
      (by decide)⟩

/-- C4 counterexample: with the first operation's allocation failing and
the second succeeding, `osoputlen(&s, [65], 1)` then `osocatlen(&s, [], 0)`
ends with a non-absent handle whose content is `[]` and length 0 — not
`[65] ++ []` and not `|a| + |b| = 1` — so the guard "if the handle is
non-absent afterwards" is not sufficient as stated. -/
theorem claim_C4_counterexample :
    osocatlen (osoputlen none [65] 1 false) [] 0 true = some ⟨0, 0, [0]⟩ ∧
    osolen (osocatlen (osoputlen none [65] 1 false) [] 0 true) ≠
      [65].length + ([] : List Nat).length ∧
    osoStr (osocatlen (osoputlen none [65] 1 false) [] 0 true) ≠
      [65] ++ ([] : List Nat) := by
  decide

/-- C4 amended: if the handle is non-absent after the put **and** after the
cat (and the appended span is representable), the final content equals
`a ++ b` and the final length equals `|a| + |b|`. -/
theorem claim_C4_put_cat_amended (s : Option Oso) (a bs : List Nat)
    (ok1 ok2 : Bool) (b1 b2 : Oso) (hs : invHolds s = true)
    (hbs : bs.length ≤ OSO_CAP_MAX)
    (h1 : osoputlen s a a.length ok1 = some b1)
    (h2 : osocatlen (some b1) bs bs.length ok2 = some b2) :
    b2.data.take b2.len = a ++ bs ∧ b2.len = a.length + bs.length := by
  obtain ⟨_, hput⟩ := putlen_spec s a a.length ok1 hs (Nat.le_refl _)
  obtain ⟨hib1, hl1, ht1, _, _⟩ := hput b1 h1
  obtain ⟨_, hcat⟩ := catlen_spec (some b1) bs bs.length ok2 hib1
    (Nat.le_refl _) hbs
  obtain ⟨_, hl2, ht2, _⟩ := hcat b2 h2
  constructor
  · rw [ht2, List.take_length]
    show b1.data.take b1.len ++ bs = a ++ bs
    rw [hl1, ht1, List.take_length]
  · rw [hl2]
    show b1.len + bs.length = a.length + bs.length
    rw [hl1]

/-- C4 witness: put `[1]` then cat `[2]` with all allocations succeeding. -/
theorem claim_C4_witness :
    invHolds (none : Option Oso) = true ∧
    [2].length ≤ OSO_CAP_MAX ∧
    osoputlen none [1] [1].length true = some ⟨1, 1, [1, 0]⟩ ∧
    osocatlen (some ⟨1, 1, [1, 0]⟩) [2] [2].length true =
      some ⟨2, 2, [1, 2, 0]⟩ ∧
    ((⟨2, 2, [1, 2, 0]⟩ : Oso).data.take (⟨2, 2, [1, 2, 0]⟩ : Oso).len =
      [1] ++ [2] ∧
      (⟨2, 2, [1, 2, 0]⟩ : Oso).len = [1].length + [2].length) :=
  ⟨by decide, by decide, by decide, by decide,
    claim_C4_put_cat_amended none [1] [2] true true ⟨1, 1, [1, 0]⟩
      ⟨2, 2, [1, 2, 0]⟩ (by decide) (by decide) (by decide) (by decide)⟩

/-- C5: growth is exact-fit and never shrinks: `osoensurecap` is a no-op on
a live buffer whose capacity already satisfies the request; otherwise (with
a succeeding allocation) it sets the capacity to exactly the request,
leaving the length at its current value; `osomakeroomfor` likewise sets the
capacity to exactly `length + additional` when growing; and an append that
fits inside already-reserved capacity never consults the allocator (its
result does not depend on the allocation oracle) and leaves the capacity
unchanged. -/
theorem claim_C5_exact_fit (b : Oso) (p : Option Oso) (n add : Nat)
    (c : List Nat) (ok : Bool) :
    (invB b = true → n ≤ b.cap → osoensurecap (some b) n ok = some b) ∧
    (invHolds p = true → n ≤ OSO_CAP_MAX → osocap p < n →
      ∀ s1, osoensurecap p n true = some s1 →
        s1.cap = n ∧ s1.len = osolen p) ∧
    (invHolds p = true → add ≤ OSO_CAP_MAX → osolen p + add ≤ OSO_CAP_MAX →
      osocap p < osolen p + add →
      ∀ s2, osomakeroomfor p add true = some s2 →
        s2.cap = osolen p + add ∧ s2.len = osolen p) ∧
    (invB b = true → b.len + c.length ≤ b.cap →
      osocatlen (some b) c c.length false = osocatlen (some b) c c.length true ∧
      osocap (osocatlen (some b) c c.length true) = b.cap) := by
  refine ⟨?_, ?_, ?_, ?_⟩
  · intro hb hn
    obtain ⟨h1, h2, h3, h4⟩ := (invB_iff b).mp hb
    simp only [osoensurecap]
    rw [if_neg (by omega), if_pos hn]
  · intro hp hn hlt s1 h
    cases p with
    | none =>
      have hres : osoensurecap none n true =
          some ⟨0, n, 0 :: List.replicate n junk⟩ := by
        simp only [osoensurecap, if_neg (not_lt.mpr hn)]
        rfl
      rw [hres] at h
      simp only [Option.some.injEq] at h
      subst h
      exact ⟨rfl, rfl⟩
    | some s =>
      have hlt2 : s.cap < n := hlt
      have hres : osoensurecap (some s) n true =
          some ⟨s.len, n, s.data.take (n + 1) ++
            List.replicate (n + 1 - s.data.length) junk⟩ := by
        simp only [osoensurecap, if_neg (not_lt.mpr hn),
          if_neg (not_le.mpr hlt2)]
        rfl
      rw [hres] at h
      simp only [Option.some.injEq] at h
      subst h
      exact ⟨rfl, rfl⟩
  · intro hp hadd hsum hlt s2 h
    cases p with
    | none =>
      have hres : osomakeroomfor none add true =
          some ⟨0, add, 0 :: List.replicate add junk⟩ := by
        simp only [osomakeroomfor, if_neg (not_lt.mpr hadd)]
        rfl
      rw [hres] at h
      simp only [Option.some.injEq] at h
      subst h
      exact ⟨by simp [osolen], rfl⟩
    | some s =>
      have hs : invB s = true := hp
      obtain ⟨h1, h2, h3, h4⟩ := (invB_iff s).mp hs
      have hsum2 : s.len + add ≤ OSO_CAP_MAX := hsum
      have hlt2 : s.cap < s.len + add := hlt
      have hmod : (s.len + add) % W = s.len + add :=
        Nat.mod_eq_of_lt (by have := cap_max_lt_W; omega)
      have hres : osomakeroomfor (some s) add true =
          some ⟨s.len, s.len + add, s.data.take (s.len + add + 1) ++
            List.replicate (s.len + add + 1 - s.data.length) junk⟩ := by
        simp only [osomakeroomfor, wsub_exact _ _ hadd cap_max_lt_W, hmod]
        rw [if_neg (by omega), if_neg (not_le.mpr hlt2)]
        rfl
      rw [hres] at h
      simp only [Option.some.injEq] at h
      subst h
      exact ⟨rfl, rfl⟩
  · intro hb hfit
    obtain ⟨h1, h2, h3, h4⟩ := (invB_iff b).mp hb
    have hc : c.length ≤ OSO_CAP_MAX := by omega
    have hmk : ∀ ok2 : Bool, osomakeroomfor (some b) c.length ok2 = some b := by
      intro ok2
      simp only [osomakeroomfor, wsub_exact _ _ hc cap_max_lt_W]
      rw [if_neg (by omega),
        if_pos (by rw [Nat.mod_eq_of_lt (by have := cap_max_lt_W; omega)]
                   exact hfit)]
    constructor
    · simp only [osocatlen, hmk]
    · simp only [osocatlen, hmk, osocap]

/-- C5 witness: a reserved buffer of capacity 10 accepts the request 10 as
a no-op; growing an absent handle to 10 (or making room for 4) allocates
exactly that capacity; appending 3 bytes inside the reserved capacity is
oracle-independent and keeps the capacity. -/
theorem claim_C5_witness :
    invB ⟨0, 10, 0 :: List.replicate 10 junk⟩ = true ∧
    invHolds (none : Option Oso) = true ∧
    10 ≤ OSO_CAP_MAX ∧
    (osoensurecap (some ⟨0, 10, 0 :: List.replicate 10 junk⟩) 10 true =
      some ⟨0, 10, 0 :: List.replicate 10 junk⟩) ∧
    (∀ s1, osoensurecap none 10 true = some s1 → s1.cap = 10 ∧ s1.len = 0) ∧
    (∀ s2, osomakeroomfor none 4 true = some s2 → s2.cap = 4 ∧ s2.len = 0) ∧
    (osocatlen (some ⟨0, 10, 0 :: List.replicate 10 junk⟩) [1, 2, 3]
        [1, 2, 3].length false =
      osocatlen (some ⟨0, 10, 0 :: List.replicate 10 junk⟩) [1, 2, 3]
        [1, 2, 3].length true ∧
      osocap (osocatlen (some ⟨0, 10, 0 :: List.replicate 10 junk⟩) [1, 2, 3]
        [1, 2, 3].length true) = 10) := by
  have hmain := claim_C5_exact_fit ⟨0, 10, 0 :: List.replicate 10 junk⟩ none
    10 4 [1, 2, 3] true
  refine ⟨by decide, by decide, by decide,
    hmain.1 (by decide) (by decide), ?_, ?_, hmain.2.2.2 (by decide) (by decide)⟩
  · intro s1 h
    exact hmain.2.1 (by decide) (by decide) (by decide) s1 h
  · intro s2 h
    exact hmain.2.2.1 (by decide) (by decide) (by decide) (by decide) s2 h

/-- C6 counterexample: on the live one-byte buffer created by
`osoputlen(&s, "A", 1)`, requesting `SIZE_MAX = 2^64 - 1` additional bytes
passes the maximum (`1 + (2^64 - 1) > OSO_CAP_MAX`), yet `osomakeroomfor`
neither frees the allocation nor absents the handle: the wrapping
`size_t` subtraction in `len > OSO_CAP_MAX - add_len` evaluates to
`2^64 - 17`, the check passes, the wrapped requested capacity
`(1 + (2^64 - 1)) mod 2^64 = 0` fits the existing capacity, and the call
silently returns with the buffer intact. -/
theorem claim_C6_counterexample :
    osoputlen none [65] 1 true = some ⟨1, 1, [65, 0]⟩ ∧
    OSO_CAP_MAX < osolen (some (⟨1, 1, [65, 0]⟩ : Oso)) + (W - 1) ∧
    osomakeroomfor (some ⟨1, 1, [65, 0]⟩) (W - 1) true =
      some ⟨1, 1, [65, 0]⟩ := by
  decide

/-- C6 amended: `osoensurecap` with a request above `OSO_CAP_MAX` releases
the allocation (if any) and leaves the handle absent; `osomakeroomfor` on a
live buffer does the same whenever `length + additional` exceeds
`OSO_CAP_MAX`, **provided** `additional ≤ OSO_CAP_MAX` (true of every span
that can exist in the address space next to the live allocation; for larger
`additional` the wrapping subtraction misses the overflow); on an absent
handle an over-ceiling `osomakeroomfor` request leaves the handle absent
without allocating. -/
theorem claim_C6_ceiling_amended (p : Option Oso) (b : Oso)
    (n add1 add2 : Nat) (ok1 ok2 ok3 : Bool) :
    (OSO_CAP_MAX < n → osoensurecap p n ok1 = none) ∧
    (invB b = true → add1 ≤ OSO_CAP_MAX → OSO_CAP_MAX < b.len + add1 →
      osomakeroomfor (some b) add1 ok2 = none) ∧
    (OSO_CAP_MAX < add2 → osomakeroomfor none add2 ok3 = none) := by
  refine ⟨?_, ?_, ?_⟩
  · intro h
    simp only [osoensurecap, if_pos h]
  · intro hb hadd hover
    obtain ⟨h1, h2, h3, h4⟩ := (invB_iff b).mp hb
    simp only [osomakeroomfor, wsub_exact _ _ hadd cap_max_lt_W]
    rw [if_pos (by omega)]
  · intro h
    simp only [osomakeroomfor, if_pos h]

/-- C6 witness: the ceiling checks instantiated at `OSO_CAP_MAX + 1` for
`osoensurecap` (on an absent handle) and at `OSO_CAP_MAX` additional bytes
on a live one-byte buffer for `osomakeroomfor`. -/
theorem claim_C6_witness :
    OSO_CAP_MAX < OSO_CAP_MAX + 1 ∧
    invB ⟨1, 1, [65, 0]⟩ = true ∧
    OSO_CAP_MAX ≤ OSO_CAP_MAX ∧
    OSO_CAP_MAX < (⟨1, 1, [65, 0]⟩ : Oso).len + OSO_CAP_MAX ∧
    osoensurecap none (OSO_CAP_MAX + 1) true = none ∧
    osomakeroomfor (some ⟨1, 1, [65, 0]⟩) OSO_CAP_MAX true = none ∧
    osomakeroomfor none (OSO_CAP_MAX + 1) true = none := by
  have hmain := claim_C6_ceiling_amended none ⟨1, 1, [65, 0]⟩
    (OSO_CAP_MAX + 1) OSO_CAP_MAX (OSO_CAP_MAX + 1) true true true
  exact ⟨by decide, by decide, by decide, by decide, hmain.1 (by decide),
    hmain.2.1 (by decide) (by decide) (by decide), hmain.2.2 (by decide)⟩

/-- C7 counterexample: appending the single zero byte `[0]` to an absent
handle and then trimming with the **empty** cut set does not leave the
content unchanged: `strchr(cut_set, 0)` finds the cut set's terminator, so
the zero byte is trimmed and the length drops from 1 to 0. -/
theorem claim_C7_counterexample :
    osocatlen none [0] [0].length true = some ⟨1, 1, [0, 0]⟩ ∧
    osotrim (osocatlen none [0] [0].length true) [] = some ⟨0, 1, [0, 0]⟩ ∧
    osoStr (osotrim (osocatlen none [0] [0].length true) []) ≠
      osoStr (osocatlen none [0] [0].length true) ∧
    osolen (osotrim (osocatlen none [0] [0].length true) []) ≠
      osolen (osocatlen none [0] [0].length true) := by
  decide

/-- C7 amended: `osocatlen(&s, x, |x|)` followed by `osotrim(s, "")` with
the empty cut set leaves the buffer's content and length unchanged,
provided the resulting content does not start or end with a zero byte
(`strchr` also matches the cut set's terminator, so trim with an empty cut
set strips edge zero bytes). -/
theorem claim_C7_trim_amended (s : Option Oso) (x : List Nat) (ok : Bool)
    (b : Oso) (_hs : invHolds s = true) (_hx : x.length ≤ OSO_CAP_MAX)
    (_h : osocatlen s x x.length ok = some b)
    (hedge : b.len = 0 ∨
      (b.data.getD 0 0 ≠ 0 ∧ b.data.getD (b.len - 1) 0 ≠ 0)) :
    osoStr (osotrim (some b) []) = osoStr (some b) ∧
    osolen (osotrim (some b) []) = osolen (some b) :=
  trim_nil_preserve b hedge

/-- C7 witness: appending `[65]` to an absent handle and trimming with the
empty cut set leaves the content `[65]` and the length 1 unchanged. -/
theorem claim_C7_witness :
    invHolds (none : Option Oso) = true ∧
    [65].length ≤ OSO_CAP_MAX ∧
    osocatlen none [65] [65].length true = some ⟨1, 1, [65, 0]⟩ ∧
    ((⟨1, 1, [65, 0]⟩ : Oso).len = 0 ∨
      ((⟨1, 1, [65, 0]⟩ : Oso).data.getD 0 0 ≠ 0 ∧
        (⟨1, 1, [65, 0]⟩ : Oso).data.getD ((⟨1, 1, [65, 0]⟩ : Oso).len - 1) 0 ≠
          0)) ∧
    (osoStr (osotrim (some ⟨1, 1, [65, 0]⟩) []) =
        osoStr (some ⟨1, 1, [65, 0]⟩) ∧
      osolen (osotrim (some ⟨1, 1, [65, 0]⟩) []) =
        osolen (some ⟨1, 1, [65, 0]⟩)) :=
  ⟨by decide, by decide, by decide, by decide,
    claim_C7_trim_amended none [65] true ⟨1, 1, [65, 0]⟩ (by decide)
      (by decide) (by decide) (by decide)⟩

/-- C8 counterexample: the claim says an absent source for the
buffer-source variants is "not checked, not recovered", but the C source of
both `osoputoso` and `osocatoso` begins with an explicit
`if (!other) return;` — at a concrete live destination the call with an
absent source is well-defined and returns with the destination unchanged. -/
theorem claim_C8_counterexample :
    osoputoso (some ⟨2, 2, [65, 66, 0]⟩) none true =
      some ⟨2, 2, [65, 66, 0]⟩ ∧
    osocatoso (some ⟨2, 2, [65, 66, 0]⟩) none true =
      some ⟨2, 2, [65, 66, 0]⟩ := by
  decide

/-- C8 amended: passing an absent Buffer as the source argument to
`osoputoso` or `osocatoso` **is** checked: the implementation returns
immediately and the destination handle is left unchanged (no allocation,
no content change, no recovery needed). -/
theorem claim_C8_null_source_amended (p : Option Oso) (ok : Bool) :
    osoputoso p none ok = p ∧ osocatoso p none ok = p :=
  ⟨rfl, rfl⟩

/-- C9: `osoputvprintf` produces exactly the state produced by clearing the
buffer (length 0, terminator rewritten at offset 0 — `osoclear`) and then
running `osocatvprintf`, for every handle state, chunk stream and
allocation oracle: replace-via-format is clear-then-append through the same
append machinery. -/
theorem claim_C9_put_is_clear_then_cat (p : Option Oso)
    (chunks : List (List Nat)) (oracle : List Bool) :
    osoputvprintf p chunks oracle = osocatvprintf (osoclear p) chunks oracle := by
  cases p <;> rfl

/-- C10: appending zero bytes to an absent handle materialises storage:
with the allocation succeeding, `osocatlen(&s, c, 0)` on an absent handle
yields a live buffer with length 0, capacity 0 and the terminator byte at
offset 0. -/
theorem claim_C10_materialize (c : List Nat) :
    osocatlen none c 0 true = some ⟨0, 0, [0]⟩ ∧
    osolen (osocatlen none c 0 true) = 0 ∧
    osocap (osocatlen none c 0 true) = 0 ∧
    osoStr (osocatlen none c 0 true) = [] := by
  have h : osocatlen none c 0 true = some ⟨0, 0, [0]⟩ := rfl
  refine ⟨h, ?_, ?_, ?_⟩ <;> rw [h] <;> rfl

end Oso89
